import Mathlib

/-!
Verification development for an ETL pipeline that downloads property-data
archives from an FTP server, filters delimited text files by state code,
repackages them as ZIP archives and delivers them to object storage and to
an outgoing FTP folder.

Filenames, lines and configuration strings are modelled as lists of
characters (`Str`).  Pure fragments of the Python source are translated
into executable Lean functions; stateful loops become explicit folds over
the relevant state.  Each definition carries a comment naming the Python
function it embeds.
-/

namespace ETL

/-- Strings are modelled as lists of characters. -/
abbrev Str := List Char

/-- Python `str.upper` (ASCII data). -/
def upperStr (s : Str) : Str := s.map Char.toUpper

/-- Python `str.lower` (ASCII data). -/
def lowerStr (s : Str) : Str := s.map Char.toLower

/-- Boolean prefix test, Python `str.startswith`. -/
def isPfx : Str → Str → Bool
  | [], _ => true
  | _ :: _, [] => false
  | a :: as, b :: bs => a == b && isPfx as bs

/-- Boolean suffix test, Python `str.endswith`. -/
def isSfx (p s : Str) : Bool := isPfx p.reverse s.reverse

/-- Boolean substring test, Python `sub in s`. -/
def isSub (p : Str) : Str → Bool
  | [] => p.isEmpty
  | c :: t => isPfx p (c :: t) || isSub p t

/-- Python `str.split(sep)` for a one-character separator: `"".split` gives
`[""]`, separators at the ends produce empty pieces. -/
def splitOnChar (d : Char) : Str → List Str
  | [] => [[]]
  | c :: t =>
    match splitOnChar d t with
    | [] => if c == d then [[], []] else [[c]]
    | h :: rest => if c == d then [] :: h :: rest else (c :: h) :: rest

/-- The whitespace characters stripped by Python `str.strip()`. -/
def isPySpace (c : Char) : Bool :=
  c == ' ' || c == '\t' || c == '\n' || c == '\x0d' || c == '\x0b' || c == '\x0c'

/-- Python `str.strip()`. -/
def pyStrip (s : Str) : Str :=
  ((s.dropWhile isPySpace).reverse.dropWhile isPySpace).reverse

/-! ## Upload cleanup decision (etl_pipeline.py, process_dataset lines 234-263) -/

/-- Embeds the per-archive local-deletion decision of the cleanup loop in
`AttomETLPipeline.process_dataset`: `ftp_action == 'move'` deletes exactly
when the FTP upload was verified; otherwise (`copy` and any other value)
the file is kept when `filter_ftp_upload` is set, and deleted when either
sink succeeded otherwise. -/
def shouldDeleteFiltered (ftpAction : Str) (requireFtp spaceOk ftpOk : Bool) : Bool :=
  if ftpAction == ("move".toList) then ftpOk
  else if requireFtp then false
  else spaceOk || ftpOk

/-- The cleanup decision matrix exactly as the specification states it
(section 4.5): row 1 `require_ftp = false, any action`: delete iff
`objectStoreVerified OR ftpVerified`; row 2 `true, copy`: never delete;
row 3 `true, move`: delete iff `ftpVerified`. -/
def specCleanupMatrix (requireFtp : Bool) (action : Str) (spaceOk ftpOk : Bool) : Bool :=
  if !requireFtp then spaceOk || ftpOk
  else if action == ("copy".toList) then false
  else ftpOk

/-! ## Spaces upload bookkeeping (spaces_uploader.py and etl_pipeline.py lines 193-203) -/

/-- The public URL built by `SpacesUploader.upload_file` on success. -/
def spacesPublicUrl (endpoint bucket remotePath : Str) : Str :=
  endpoint ++ ("/".toList) ++ bucket ++ ("/".toList) ++ remotePath

/-- Embeds `SpacesUploader.upload_multiple_files`: each file is uploaded
under the folder plus filename key; a failing upload is logged and skipped, so the
returned URL list contains only the successful uploads, in order.  Every
file is given with the outcome of its own upload attempt (`true` means
`upload_file` returned a URL, `false` means it raised). -/
def uploadMultipleFilesSpaces (endpoint bucket folderPfx : Str) :
    List (Str × Bool) → List Str
  | [] => []
  | f :: rest =>
    if f.2 then
      spacesPublicUrl endpoint bucket (folderPfx ++ ("/".toList) ++ f.1)
        :: uploadMultipleFilesSpaces endpoint bucket folderPfx rest
    else uploadMultipleFilesSpaces endpoint bucket folderPfx rest

/-- Embeds the map construction of `process_dataset` lines 200-203: the
archive list is zipped positionally with the returned URL list and each
pair records `bool(url)` (a URL is a nonempty string). -/
def spacesFlagMap (archives urls : List Str) : List (Str × Bool) :=
  (archives.zip urls).map (fun pu => (pu.1, !pu.2.isEmpty))

/-- Embeds `spaces_map.get(pstr, False)` of the cleanup loop. -/
def spacesFlagFor (m : List (Str × Bool)) (p : Str) : Bool :=
  match m.find? (fun q => q.1 == p) with
  | some q => q.2
  | none => false

/-! ## Remote-file matching (ftp_downloader.py) -/

/-- Per-dataset configuration fields consumed by the matching logic.
`parserKeywordOverride` models the optional `parser_keyword` entry (an
empty string is falsy in Python and falls back to the name map). -/
structure DatasetConfig where
  name : Str
  parserKeywordOverride : Option Str := none
  ignoreStates : Bool := false
  allowParserOnly : Bool := false
  excludeStates : List Str := []

/-- Embeds `FTPDownloader._get_parser_keyword`: the dataset-name to
filename-keyword map with uppercased-name fallback. -/
def getParserKeyword (datasetName : Str) : Str :=
  if datasetName == ("Assessor".toList) then ("TAXASSESSOR".toList)
  else if datasetName == ("AVM".toList) then ("AVM".toList)
  else if datasetName == ("Parcel".toList) then ("PARCEL".toList)
  else if datasetName == ("PROPERTYTOBOUNDARYMATCH_PARCEL".toList) then ("PARCEL".toList)
  else if datasetName == ("Recorder".toList) then ("RECORDER".toList)
  else if datasetName == ("PreForeclosure".toList) then ("PREFORECLOSURE".toList)
  else upperStr datasetName

/-- The parser keyword used for a dataset: the `parser_keyword` override
when present and nonempty (Python `or` falls through on an empty string),
else the name map, uppercased as in the source. -/
def parserKwOf (cfg : DatasetConfig) : Str :=
  upperStr (match cfg.parserKeywordOverride with
    | some k => if k.isEmpty then getParserKeyword cfg.name else k
    | none => getParserKeyword cfg.name)

/-- The filename tokens used by the matcher and by the exclusion guard:
uppercase the name, turn `.` and `-` into `_`, split on `_`
(`file_upper.replace('.', '_').replace('-', '_').split('_')`). -/
def tokensOf (file : Str) : List Str :=
  splitOnChar '_'
    (((upperStr file).map (fun c => if c == '.' then '_' else c)).map
      (fun c => if c == '-' then '_' else c))

/-- Embeds `FTPDownloader._filename_has_excluded_state`: true when some
token of the filename equals an uppercased excluded state. -/
def filenameHasExcludedState (file : Str) (cfg : DatasetConfig) : Bool :=
  let ex := cfg.excludeStates.map upperStr
  if ex.isEmpty then false
  else (tokensOf file).any (fun p => ex.contains p)

/-- Embeds the loop body of `FTPDownloader._filter_files_by_dataset` for a
single file: find the first token equal to a configured state; reject when
that token is excluded; accept on parser keyword alone under
`ignore_states_for_download`; otherwise require the parser keyword plus
either a state token or `allow_parser_only`.  The found token is used
through Python truthiness (`if state_found and ...`, `if state_found:`),
so a matched empty token behaves as no match in both places. -/
def fileAccepted (states : List Str) (cfg : DatasetConfig) (file : Str) : Bool :=
  let fileUpper := upperStr file
  let parts := tokensOf file
  let kw := parserKwOf cfg
  let statesUpper := states.map upperStr
  let parserPresent := parts.contains kw || isSub kw fileUpper
  let stateFound := parts.find? (fun p => statesUpper.contains p)
  let exUpper := cfg.excludeStates.map upperStr
  if (match stateFound with
      | some st => !st.isEmpty && exUpper.contains st
      | none => false) then false
  else if cfg.ignoreStates then parserPresent
  else if parserPresent then
    (match stateFound with
      | some st => !st.isEmpty
      | none => false) || cfg.allowParserOnly
  else false

/-- Embeds `FTPDownloader._filter_files_by_dataset` on a listing. -/
def filterFilesByDataset (states : List Str) (cfg : DatasetConfig)
    (files : List Str) : List Str :=
  files.filter (fileAccepted states cfg)

/-- The browse-mode match predicate exactly as the specification words it
(section 4.1): no token equals an excluded partition key, the type keyword
appears as a token or as a substring of the full uppercased name, and a
token equals a partition key or one of the two override flags is set. -/
def specBrowseMatch (states : List Str) (cfg : DatasetConfig) (file : Str) : Bool :=
  let parts := tokensOf file
  let kw := parserKwOf cfg
  let exUpper := cfg.excludeStates.map upperStr
  (parts.all (fun p => !(exUpper.contains p))) &&
  (parts.contains kw || isSub kw (upperStr file)) &&
  (parts.any (fun p => (states.map upperStr).contains p) ||
    cfg.allowParserOnly || cfg.ignoreStates)

/-! ## Streaming state filter (transformers/state_filter.py) -/

/-- Locate the partition-key column: `headers = line.strip().split(delim)`
then `headers.index(col)`, `none` when the column is absent
(`ValueError`). -/
def headerIndexOf (col : Str) (delim : Char) (headerLine : Str) : Option Nat :=
  (splitOnChar delim (pyStrip headerLine)).indexOf? col

/-- Record predicate of `filter_file_by_state` when the column was found:
split the stripped line, guard the column count, compare the stripped
field to the state code with `==`. -/
def singleKeep (delim : Char) (idx : Nat) (stateCode : Str) (line : Str) : Bool :=
  let columns := splitOnChar delim (pyStrip line)
  if idx < columns.length then pyStrip (columns.getD idx []) == stateCode
  else false

/-- Fallback record predicate of `filter_file_by_state` when the column is
missing: delimiter-wrapped substring, line start or line end. -/
def singleKeepFallback (delim : Char) (stateCode : Str) (line : Str) : Bool :=
  isSub (delim :: stateCode ++ [delim]) line ||
  isPfx (stateCode ++ [delim]) line ||
  isSfx (delim :: stateCode) line

/-- Embeds `StateFilter.filter_file_by_state` on the lines of a file: the
header is always written, each later line is kept by `singleKeep` (or the
fallback when the column is absent). -/
def filterFileByState (col : Str) (delim : Char) (stateCode : Str) :
    List Str → List Str
  | [] => []
  | header :: records =>
    header ::
      match headerIndexOf col delim header with
      | some idx => records.filter (singleKeep delim idx stateCode)
      | none => records.filter (singleKeepFallback delim stateCode)

/-- Record predicate of `filter_multiple_states` when the column was
found: the stripped field is uppercased and tested for membership in the
uppercased key set. -/
def multiKeep (delim : Char) (idx : Nat) (statesSet : List Str) (line : Str) : Bool :=
  let columns := splitOnChar delim (pyStrip line)
  if idx < columns.length then statesSet.contains (upperStr (pyStrip (columns.getD idx [])))
  else false

/-- Fallback record predicate of `filter_multiple_states`: the same three
positional checks, tried for every key of the uppercased set. -/
def multiKeepFallback (delim : Char) (statesSet : List Str) (line : Str) : Bool :=
  statesSet.any (fun s =>
    isSub (delim :: s ++ [delim]) line ||
    isPfx (s ++ [delim]) line ||
    isSfx (delim :: s) line)

/-- Embeds the single-pass combined branch of
`StateFilter.filter_multiple_states` (two or more keys) on the lines of a
file: one merged output, header first, each record tested against the set
of uppercased keys. -/
def filterMultipleStatesLines (col : Str) (delim : Char) (states : List Str) :
    List Str → List Str
  | [] => []
  | header :: records =>
    let statesSet := states.map upperStr
    header ::
      match headerIndexOf col delim header with
      | some idx => records.filter (multiKeep delim idx statesSet)
      | none => records.filter (multiKeepFallback delim statesSet)

/-- Record predicate exactly as the specification words it (section 4.3):
keep a record whose partition-key column equals one of the requested
values. -/
def specKeep (delim : Char) (idx : Nat) (keys : List Str) (line : Str) : Bool :=
  let columns := splitOnChar delim (pyStrip line)
  if idx < columns.length then keys.contains (pyStrip (columns.getD idx []))
  else false

/-- Filter output exactly as the specification words it: the header line
followed by every record whose column value equals a requested key. -/
def specFilteredFile (col : Str) (delim : Char) (keys : List Str) :
    List Str → List Str
  | [] => []
  | header :: records =>
    header ::
      match headerIndexOf col delim header with
      | some idx => records.filter (specKeep delim idx keys)
      | none => records.filter (multiKeepFallback delim (keys.map upperStr))

/-- Body predicate of one single-key run of `filter_file_by_state`,
including its column-missing fallback, used to express the ordered union
of the per-key outputs. -/
def singleBodyKeep (col : Str) (delim : Char) (k : Str) (header line : Str) : Bool :=
  match headerIndexOf col delim header with
  | some idx => singleKeep delim idx k line
  | none => singleKeepFallback delim k line

/-- The ordered union of the record sets of the separate single-key runs,
as the claim words it: the records kept by some single-key run, in the
original input order, with the header counted once. -/
def orderedUnionOfSingles (col : Str) (delim : Char) (keys : List Str) :
    List Str → List Str
  | [] => []
  | header :: records =>
    header :: records.filter (fun l => keys.any (fun k => singleBodyKeep col delim k header l))

/-! ## Browse-mode download loop (ftp_downloader.py, download_dataset lines 445-657) -/

/-- The downloader-level configuration consumed by the browse loop:
`filteredZipPfx` models `filtered_zip_prefix` (an empty string is falsy),
the remaining fields drive the optional Spaces upload side effect. -/
structure TransferConfig where
  filteredZipPfx : Str := []
  hasSpaces : Bool := false
  saveMode : Str := "local".toList
  deleteLocalAfterUpload : Bool := false

/-- Guard of lines 595-602: when a `filtered_zip_prefix` is configured,
skip any remote name whose uppercasing starts with the uppercased
prefix. -/
def filteredPfxSkip (pfx f : Str) : Bool :=
  !pfx.isEmpty && isPfx (upperStr pfx) (upperStr f)

/-- The Spaces side effect of lines 639-651, applied to the directory
contents after a successful download of `f`: when the uploader is present
and the save mode requests it, a successful upload under save mode
`remote` with `delete_local_after_upload` removes the local file; a
failing upload is logged and leaves the directory unchanged. -/
def afterDownloadDir (tc : TransferConfig) (uploadOk : Str → Bool) (f : Str)
    (dir : List Str) : List Str :=
  if tc.hasSpaces && (tc.saveMode == ("both".toList) || tc.saveMode == ("remote".toList)) then
    if uploadOk f then
      if tc.saveMode == ("remote".toList) && tc.deleteLocalAfterUpload then
        dir.filter (fun g => !(g == f))
      else dir
    else dir
  else dir

/-- Result of one browse-mode run: the returned local artifacts, the names
for which a transfer was attempted, and the final contents of the
download directory. -/
structure BrowseRun where
  downloaded : List Str
  transfers : List Str
  dir : List Str

/-- Embeds the per-file loop of browse-mode `download_dataset` (lines
586-654).  `snapshot` is the set of lowercased filenames precomputed at
lines 445-450 and never updated during the run; `dir` is the live
directory contents; `succ f` tells whether the resumable transfer of `f`
completes; `uploadOk f` tells whether the optional Spaces upload of `f`
succeeds.  A name in the snapshot is skipped and still returned; a fresh
name is transferred and returned only on success.  Partial `.part` files
are left by failed transfers under a different name and never match the
snapshot test, so they are not tracked here. -/
def browseLoop (tc : TransferConfig) (cfg : DatasetConfig) (succ uploadOk : Str → Bool)
    (snapshot : List Str) : List Str → List Str → BrowseRun
  | [], dir => ⟨[], [], dir⟩
  | f :: rest, dir =>
    if filteredPfxSkip tc.filteredZipPfx f then
      browseLoop tc cfg succ uploadOk snapshot rest dir
    else if filenameHasExcludedState f cfg then
      browseLoop tc cfg succ uploadOk snapshot rest dir
    else if snapshot.contains (lowerStr f) then
      let r := browseLoop tc cfg succ uploadOk snapshot rest dir
      ⟨f :: r.downloaded, r.transfers, r.dir⟩
    else if succ f then
      let r := browseLoop tc cfg succ uploadOk snapshot rest
        (afterDownloadDir tc uploadOk f (f :: dir))
      ⟨f :: r.downloaded, f :: r.transfers, r.dir⟩
    else
      let r := browseLoop tc cfg succ uploadOk snapshot rest dir
      ⟨r.downloaded, f :: r.transfers, r.dir⟩

/-- One browse-mode run of `download_dataset` over the already filtered
listing: the snapshot is taken from the directory contents at run
start. -/
def browseModeRun (tc : TransferConfig) (cfg : DatasetConfig)
    (succ uploadOk : Str → Bool) (dir0 files : List Str) : BrowseRun :=
  browseLoop tc cfg succ uploadOk (dir0.map lowerStr) files dir0

/-- The two per-file guards that precede the snapshot test, bundled. -/
def passesGuards (tc : TransferConfig) (cfg : DatasetConfig) (f : Str) : Bool :=
  !(filteredPfxSkip tc.filteredZipPfx f) && !(filenameHasExcludedState f cfg)

/-! ## FTP upload verification (loaders/ftp_uploader.py, upload_file) -/

/-- Server-side confirmation evidence observed by `upload_file`. -/
inductive SinkConfirm
  | bySize (n : Nat)
  | byListing
deriving DecidableEq

/-- Outcome of one `ftp.size` call: the call may raise, return `None`, or
return a size. -/
inductive SizeOutcome
  | raised
  | retNone
  | got (n : Nat)
deriving DecidableEq

/-- Server behaviour during one attempt of `FTPUploader.upload_file`:
connection, directory change, the primary `STOR`, the `SIZE` probe, the
`NLST` fallback probe, and the default-directory fallback `STOR` with its
own `SIZE` probe. -/
structure FtpUploadAttempt where
  connectOk : Bool := true
  cwdOk : Bool := true
  storOk : Bool := true
  sizeOut : SizeOutcome := SizeOutcome.raised
  nlstFound : Option Bool := none
  stor2Ok : Bool := true
  size2Out : SizeOutcome := SizeOutcome.raised

/-- Embeds one iteration of the `upload_file` retry loop.  `some c` means
the attempt ended with `verified = True` and confirmation `c`; `none`
covers every other ending (an exception, or an upload that completed but
could not be verified, which raises `RuntimeError` and is retried). -/
def attemptConfirm (a : FtpUploadAttempt) : Option SinkConfirm :=
  if !a.connectOk then none
  else if a.cwdOk then
    if a.storOk then
      match a.sizeOut with
      | SizeOutcome.got n => some (SinkConfirm.bySize n)
      | _ => none
    else none
  else if a.storOk then
    match a.sizeOut with
    | SizeOutcome.got n => some (SinkConfirm.bySize n)
    | SizeOutcome.raised =>
      match a.nlstFound with
      | some true => some SinkConfirm.byListing
      | _ => none
    | SizeOutcome.retNone => none
  else if a.stor2Ok then
    match a.size2Out with
    | SizeOutcome.got n => some (SinkConfirm.bySize n)
    | _ => none
  else none

/-- The retry loop of `upload_file`: attempts numbered from 1, first
verified attempt wins, `none` after the limit is exhausted (the function
then returns `False`). -/
def ftpUploadGo (env : Nat → FtpUploadAttempt) : Nat → Nat → Option SinkConfirm
  | 0, _ => none
  | fuel + 1, k =>
    match attemptConfirm (env k) with
    | some c => some c
    | none => ftpUploadGo env fuel (k + 1)

/-- Embeds `FTPUploader.upload_file`: the loop runs `max 1 retries`
attempts (`while attempt < max(1, self.retries)`); the result is the
confirmation of the first verified attempt, or `none` for a `False`
return. -/
def ftpUploadResult (env : Nat → FtpUploadAttempt) (retries : Nat) : Option SinkConfirm :=
  ftpUploadGo env (max 1 retries) 1

/-- Embeds `SpacesUploader.upload_file` together with the list of
server-side verification checks it performs: the put either raises
(`none`) or returns the client-side URL; no `SIZE` or listing probe is
ever issued, so the check list is always empty. -/
def spacesUploadChecked (uploadOk : Bool) (endpoint bucket remotePath : Str) :
    Option Str × List SinkConfirm :=
  (if uploadOk then some (spacesPublicUrl endpoint bucket remotePath) else none, [])

/-! ## Download retry and backoff (ftp_downloader.py) -/

/-- The delay slept after failed FTP download attempt `n`
(`time.sleep(min(5 * attempt, 60))`). -/
def ftpRetrySleep (attempt : Nat) : Nat := min (5 * attempt) 60

/-- The delay slept after failed HTTP download attempt `n`
(`time.sleep(min(5 * attempt, 30))`). -/
def httpRetrySleep (attempt : Nat) : Nat := min (5 * attempt) 30

/-- One transfer attempt: whether it completes, and how many bytes it
appends to the partial `.part` file before finishing or failing. -/
structure DownloadAttempt where
  ok : Bool
  bytes : Nat

/-- Result of the retry loop: overall success, the byte count of the
final (or remaining partial) file, and the list of delays slept. -/
structure RetryRun where
  success : Bool
  partBytes : Nat
  sleeps : List Nat

/-- Embeds the retry loops of `_download_ftp_file_with_retries` and
`_download_http_file_with_retries`: attempts are numbered from 1 up to the
limit; each attempt resumes by appending to the preserved partial file
(append mode when bytes exist, write mode on an empty part — identical
when the part is empty); after every failed attempt the loop sleeps
`sleepOf attempt` and retries. -/
def downloadRetryLoop (sleepOf : Nat → Nat) (env : Nat → DownloadAttempt) :
    Nat → Nat → Nat → RetryRun
  | 0, _, part => ⟨false, part, []⟩
  | fuel + 1, k, part =>
    let a := env k
    let newPart := part + a.bytes
    if a.ok then ⟨true, newPart, []⟩
    else
      let r := downloadRetryLoop sleepOf env fuel (k + 1) newPart
      ⟨r.success, r.partBytes, sleepOf k :: r.sleeps⟩

/-- `_download_ftp_file_with_retries` from attempt 1, with the FTP
backoff. -/
def ftpDownloadWithRetries (env : Nat → DownloadAttempt) (useRetries part0 : Nat) : RetryRun :=
  downloadRetryLoop ftpRetrySleep env useRetries 1 part0

/-- `_download_http_file_with_retries` from attempt 1, with the HTTP
backoff. -/
def httpDownloadWithRetries (env : Nat → DownloadAttempt) (retries part0 : Nat) : RetryRun :=
  downloadRetryLoop httpRetrySleep env retries 1 part0

/-- The attempt limit of the FTP download helper: the configured value
when positive, else the default parameter (3). -/
def ftpUseRetries (cfgRetries : Int) (dflt : Nat) : Nat :=
  if 0 < cfgRetries then cfgRetries.toNat else dflt

/-! ## Archive naming (etl_pipeline.py lines 117-140, state_filter.py compress_to_zip) -/

/-- The marker used by the state filter in intermediate filtered names. -/
def filteredMarker : Str := "_filtered_".toList

/-- Python `stem.split('_filtered_')[0]`: everything before the first
occurrence of the marker, the whole stem when the marker is absent. -/
def takeBeforeMarker (marker : Str) : Str → Str
  | [] => []
  | c :: t => if isPfx marker (c :: t) then [] else c :: takeBeforeMarker marker t

/-- Embeds the ZIP naming of `process_dataset` lines 121-131: a truthy
`filtered_zip_prefix` gives `prefix + stem + .zip` with no date; otherwise
the default `dataset_name + _ + stem + _ + date + .zip`. -/
def zipNameFor (pfx datasetName stem dateStr : Str) : Str :=
  if !pfx.isEmpty then pfx ++ stem ++ (".zip".toList)
  else datasetName ++ ("_".toList) ++ stem ++ ("_".toList) ++ dateStr ++ (".zip".toList)

/-- Embeds the entry naming of `compress_to_zip`: without a truthy inner
prefix the entry keeps its filename (`stem + suffix`); with a prefix the
stem is cut at the first `_filtered_` marker and the prefix is
prepended. -/
def arcnameFor (innerPfx stem ext : Str) : Str :=
  if innerPfx.isEmpty then stem ++ ext
  else innerPfx ++ takeBeforeMarker filteredMarker stem ++ ext

/-- The intermediate filtered filename built by `filter_multiple_states`:
`stem + _filtered_ + joined keys + suffix` (the joined keys are the
uppercased requested keys joined with underscores). -/
def filteredOutputName (stem keysJoined suffix : Str) : Str :=
  stem ++ filteredMarker ++ keysJoined ++ suffix

/-! ## Post-archive cleanup of intermediate files (etl_pipeline.py lines 141-161) -/

/-- Outcome of the archive build as observed by the caller: the call
raised, or returned a path with the observed `exists()` and `st_size`. -/
inductive BuildResult
  | raised
  | returned (ex : Bool) (size : Nat)

/-- What happens to one intermediate filtered file. -/
inductive Disposition
  | untouched
  | deleted
  | movedToProcessed
deriving DecidableEq

/-- The per-file branch of the cleanup loop (lines 147-159): a vanished
file is skipped, `post_process_filtered = move` moves it to the processed
directory, any other value deletes it. -/
def postFilterDisposition (action : Str) (fileExists : Bool) : Disposition :=
  if !fileExists then Disposition.untouched
  else if action == ("move".toList) then Disposition.movedToProcessed
  else Disposition.deleted

/-- Embeds lines 141-161: a raised build skips the cleanup loop entirely
(the surrounding handler catches the error); a returned archive is
post-processed only when it exists with nonzero size, otherwise every
intermediate file is kept for inspection. -/
def intermediateDispositions (result : BuildResult) (action : Str)
    (files : List (Str × Bool)) : List (Str × Disposition) :=
  match result with
  | BuildResult.raised => files.map (fun f => (f.1, Disposition.untouched))
  | BuildResult.returned ex size =>
    if ex && decide (0 < size) then
      files.map (fun f => (f.1, postFilterDisposition action f.2))
    else
      files.map (fun f => (f.1, Disposition.untouched))

/-! ## Helper lemmas -/

theorem contains_true_iff_mem {α} [BEq α] [LawfulBEq α] (l : List α) (a : α) :
    l.contains a = true ↔ a ∈ l := by
  simp [List.contains, List.elem_iff]

theorem downloadRetryLoop_spec (sleepOf : Nat → Nat) (env : Nat → DownloadAttempt) :
    ∀ (fuel k part : Nat),
      (downloadRetryLoop sleepOf env fuel k part).sleeps =
        (List.range' k (downloadRetryLoop sleepOf env fuel k part).sleeps.length).map sleepOf ∧
      part ≤ (downloadRetryLoop sleepOf env fuel k part).partBytes ∧
      (downloadRetryLoop sleepOf env fuel k part).sleeps.length ≤ fuel
  | 0, k, part => by simp [downloadRetryLoop]
  | fuel + 1, k, part => by
    have ih := downloadRetryLoop_spec sleepOf env fuel (k + 1) (part + (env k).bytes)
    by_cases h : (env k).ok
    · simp [downloadRetryLoop, h]
    · simp only [downloadRetryLoop, h, if_neg, Bool.false_eq_true, not_false_eq_true]
      refine ⟨?_, ?_, ?_⟩
      · simp only [List.length_cons, List.range'_succ, List.map_cons]
        exact congrArg (sleepOf k :: ·) ih.1
      · exact le_trans (Nat.le_add_right part (env k).bytes) ih.2.1
      · simpa using Nat.succ_le_succ ih.2.2

theorem all_not_eq_not_any {α} (l : List α) (p : α → Bool) :
    (l.all fun x => !(p x)) = !(l.any p) := by
  induction l with
  | nil => rfl
  | cons a t ih => simp [List.all_cons, List.any_cons, ih, Bool.not_or]

theorem find?_isSome_eq_any {α} (l : List α) (p : α → Bool) :
    (l.find? p).isSome = l.any p := by
  induction l with
  | nil => rfl
  | cons a t ih =>
    rw [List.find?_cons, List.any_cons]
    cases h : p a
    · simpa using ih
    · rfl

theorem filenameHasExcludedState_eq (file : Str) (cfg : DatasetConfig) :
    filenameHasExcludedState file cfg =
      (tokensOf file).any (fun p => (cfg.excludeStates.map upperStr).contains p) := by
  unfold filenameHasExcludedState
  cases h : (cfg.excludeStates.map upperStr).isEmpty
  · simp [h]
  · have he : cfg.excludeStates.map upperStr = [] := by
      cases hm : cfg.excludeStates.map upperStr
      · rfl
      · rw [hm] at h
        exact absurd h (by simp)
    simp [h, he]

theorem isPfx_append (p t : Str) : isPfx p (p ++ t) = true := by
  induction p with
  | nil => rfl
  | cons a as ih => simp [isPfx, ih]

theorem isPfx_iff_take (p : Str) : ∀ u : Str, isPfx p u = true ↔ u.take p.length = p := by
  induction p with
  | nil => intro u; simp [isPfx]
  | cons a as ih =>
    intro u
    cases u with
    | nil => simp [isPfx]
    | cons b bs =>
      simp only [isPfx, List.length_cons, List.take_succ_cons, Bool.and_eq_true,
        beq_iff_eq, ih, List.cons.injEq]
      constructor
      · rintro ⟨rfl, h⟩; exact ⟨rfl, h⟩
      · rintro ⟨rfl, h⟩; exact ⟨rfl, h⟩

theorem isSub_false_elim (marker : Str) (c : Char) (t : Str)
    (h : isSub marker (c :: t) = false) :
    isPfx marker (c :: t) = false ∧ isSub marker t = false := by
  simpa [isSub, Bool.or_eq_false_iff] using h

theorem takeBeforeMarker_of_no_marker (marker : Str) :
    ∀ s : Str, isSub marker s = false → takeBeforeMarker marker s = s := by
  intro s
  induction s with
  | nil => intro _; rfl
  | cons c t ih =>
    intro h
    obtain ⟨h1, h2⟩ := isSub_false_elim marker c t h
    simp only [takeBeforeMarker, h1, Bool.false_eq_true, if_false]
    exact congrArg (c :: ·) (ih h2)

theorem takeBeforeMarker_boundary (marker k : Str) (hm : marker ≠ []) :
    ∀ s : Str, isSub marker (s ++ marker.dropLast) = false →
      takeBeforeMarker marker (s ++ marker ++ k) = s := by
  intro s
  induction s with
  | nil =>
    intro _
    obtain ⟨m0, mt, hme⟩ := List.exists_cons_of_ne_nil hm
    subst hme
    rw [List.nil_append]
    show takeBeforeMarker (m0 :: mt) (m0 :: (mt ++ k)) = []
    simp only [takeBeforeMarker]
    rw [if_pos (show isPfx (m0 :: mt) (m0 :: (mt ++ k)) = true from isPfx_append (m0 :: mt) k)]
  | cons c t ih =>
    intro h
    rw [List.cons_append] at h
    obtain ⟨h1, h2⟩ := isSub_false_elim marker c (t ++ marker.dropLast) h
    have hsplit : c :: (t ++ marker ++ k) =
        (c :: (t ++ marker.dropLast)) ++ ([marker.getLast hm] ++ k) := by
      conv_lhs => rw [← List.dropLast_append_getLast hm]
      simp [List.append_assoc]
    have hlen : marker.length ≤ (c :: (t ++ marker.dropLast)).length := by
      have h1' : 1 ≤ marker.length := List.length_pos.mpr hm
      simp only [List.length_cons, List.length_append, List.length_dropLast]
      omega
    have hp : isPfx marker (c :: (t ++ marker ++ k)) = false := by
      cases hx : isPfx marker (c :: (t ++ marker ++ k))
      · rfl
      · exfalso
        have htake := (isPfx_iff_take marker _).mp hx
        rw [hsplit, List.take_append_of_le_length hlen] at htake
        have : isPfx marker (c :: (t ++ marker.dropLast)) = true :=
          (isPfx_iff_take marker _).mpr htake
        rw [h1] at this
        exact Bool.false_ne_true this
    show takeBeforeMarker marker (c :: (t ++ marker ++ k)) = c :: t
    simp only [takeBeforeMarker]
    rw [if_neg (show ¬(isPfx marker (c :: (t ++ marker ++ k)) = true) from by rw [hp]; simp)]
    exact congrArg (c :: ·) (ih h2)

theorem mem_pyStrip {c : Char} {s : Str} (h : c ∈ pyStrip s) : c ∈ s := by
  unfold pyStrip at h
  rw [List.mem_reverse] at h
  have h2 : c ∈ (s.dropWhile isPySpace).reverse :=
    (List.dropWhile_sublist isPySpace).subset h
  rw [List.mem_reverse] at h2
  exact (List.dropWhile_sublist isPySpace).subset h2

theorem splitOnChar_cons (d a : Char) (t : Str) :
    splitOnChar d (a :: t) =
      match splitOnChar d t with
      | [] => if a == d then [[], []] else [[a]]
      | h :: rest => if a == d then [] :: h :: rest else (a :: h) :: rest := rfl

theorem mem_of_mem_splitOnChar (d : Char) :
    ∀ (s piece : Str), piece ∈ splitOnChar d s → ∀ c ∈ piece, c ∈ s := by
  intro s
  induction s with
  | nil =>
    intro piece hp c hc
    simp only [splitOnChar, List.mem_singleton] at hp
    subst hp
    simp at hc
  | cons a t ih =>
    intro piece hp c hc
    rw [splitOnChar_cons] at hp
    cases hr : splitOnChar d t with
    | nil =>
      rw [hr] at hp
      dsimp only at hp
      by_cases had : (a == d) = true
      · rw [if_pos had] at hp
        rcases List.mem_cons.mp hp with rfl | hp2
        · simp at hc
        · rcases List.mem_singleton.mp hp2 with rfl
          simp at hc
      · rw [if_neg had] at hp
        rcases List.mem_singleton.mp hp with rfl
        rcases List.mem_singleton.mp hc with rfl
        exact List.mem_cons_self _ _
    | cons h0 rest =>
      rw [hr] at hp
      dsimp only at hp
      by_cases had : (a == d) = true
      · rw [if_pos had] at hp
        rcases List.mem_cons.mp hp with rfl | hp2
        · simp at hc
        · exact List.mem_cons_of_mem a (ih piece (hr ▸ hp2) c hc)
      · rw [if_neg had] at hp
        rcases List.mem_cons.mp hp with rfl | hp2
        · rcases List.mem_cons.mp hc with rfl | hc0
          · exact List.mem_cons_self _ _
          · exact List.mem_cons_of_mem a
              (ih h0 (hr ▸ List.mem_cons_self h0 rest) c hc0)
        · exact List.mem_cons_of_mem a (ih piece (hr ▸ List.mem_cons_of_mem h0 hp2) c hc)

theorem getD_mem {α} : ∀ (l : List α) (i : Nat) (dflt : α), i < l.length → l.getD i dflt ∈ l := by
  intro l
  induction l with
  | nil => intro i d h; simp at h
  | cons a t ih =>
    intro i d h
    cases i with
    | zero => exact List.mem_cons_self _ _
    | succ n =>
      rw [List.getD_cons_succ]
      exact List.mem_cons_of_mem a (ih n d (by simpa using h))

theorem upperStr_eq_self {s : Str} (h : ∀ c ∈ s, c.toUpper = c) : upperStr s = s := by
  unfold upperStr
  have h2 : s.map Char.toUpper = s.map id := List.map_congr_left (fun c hc => h c hc)
  simpa using h2

theorem map_upperStr_eq_self {keys : List Str} (h : ∀ k ∈ keys, upperStr k = k) :
    keys.map upperStr = keys := by
  have h2 : keys.map upperStr = keys.map id := List.map_congr_left (fun k hk => h k hk)
  simpa using h2

theorem contains_eq_any_beq {α} [BEq α] (l : List α) (v : α) :
    l.contains v = l.any (fun k => v == k) := by
  induction l with
  | nil => rfl
  | cons a t ih => simp [List.contains_cons, List.any_cons, ih]

theorem upper_value_eq (delim : Char) (idx : Nat) (line : Str)
    (hline : ∀ c ∈ line, c.toUpper = c) :
    upperStr (pyStrip ((splitOnChar delim (pyStrip line)).getD idx [])) =
      pyStrip ((splitOnChar delim (pyStrip line)).getD idx []) := by
  apply upperStr_eq_self
  intro c hc
  by_cases hlen : idx < (splitOnChar delim (pyStrip line)).length
  · have hmem := getD_mem (splitOnChar delim (pyStrip line)) idx [] hlen
    have hc3 : c ∈ pyStrip line :=
      mem_of_mem_splitOnChar delim (pyStrip line) _ hmem c (mem_pyStrip hc)
    exact hline c (mem_pyStrip hc3)
  · rw [List.getD_eq_default _ _ (Nat.le_of_not_lt hlen)] at hc
    simp [pyStrip] at hc

theorem multiKeep_eq_any_singleKeep (delim : Char) (idx : Nat) (keys : List Str) (line : Str)
    (hkeys : ∀ k ∈ keys, upperStr k = k) (hline : ∀ c ∈ line, c.toUpper = c) :
    multiKeep delim idx (keys.map upperStr) line =
      keys.any (fun k => singleKeep delim idx k line) := by
  simp only [multiKeep, singleKeep]
  rw [map_upperStr_eq_self hkeys, upper_value_eq delim idx line hline]
  by_cases hlen : idx < (splitOnChar delim (pyStrip line)).length
  · rw [if_pos hlen]
    rw [contains_eq_any_beq]
    refine congrArg keys.any (funext fun k => ?_)
    rw [if_pos hlen]
  · rw [if_neg hlen]
    symm
    rw [List.any_eq_false]
    intro k _
    rw [if_neg hlen]
    simp

theorem multiKeep_eq_specKeep (delim : Char) (idx : Nat) (keys : List Str) (line : Str)
    (hkeys : ∀ k ∈ keys, upperStr k = k) (hline : ∀ c ∈ line, c.toUpper = c) :
    multiKeep delim idx (keys.map upperStr) line = specKeep delim idx keys line := by
  simp only [multiKeep, specKeep]
  rw [map_upperStr_eq_self hkeys, upper_value_eq delim idx line hline]

theorem singleKeep_eq_specKeep_singleton (delim : Char) (idx : Nat) (k line : Str) :
    singleKeep delim idx k line = specKeep delim idx [k] line := by
  simp only [singleKeep, specKeep]
  by_cases hlen : idx < (splitOnChar delim (pyStrip line)).length
  · rw [if_pos hlen, if_pos hlen]
    simp only [List.contains_cons, List.contains_nil, Bool.or_false]
  · rw [if_neg hlen, if_neg hlen]

theorem count_le_one_of_nodup {α} [BEq α] [LawfulBEq α] :
    ∀ {l : List α}, l.Nodup → ∀ a, l.count a ≤ 1 := by
  intro l
  induction l with
  | nil => intro _ a; simp
  | cons b t ih =>
    intro h a
    rw [List.count_cons]
    rcases List.nodup_cons.mp h with ⟨hb, ht⟩
    by_cases hab : (b == a) = true
    · rw [if_pos hab]
      have hab2 : b = a := eq_of_beq hab
      subst hab2
      rw [List.count_eq_zero.mpr hb]
    · rw [if_neg hab]
      simpa using ih ht a

theorem afterDownloadDir_eq_self (tc : TransferConfig) (uploadOk : Str → Bool) (f : Str)
    (dir : List Str)
    (hkeep : tc.saveMode ≠ ("remote".toList) ∨ tc.deleteLocalAfterUpload = false) :
    afterDownloadDir tc uploadOk f dir = dir := by
  unfold afterDownloadDir
  have hinner : (tc.saveMode == ("remote".toList) && tc.deleteLocalAfterUpload) = false := by
    rcases hkeep with hk | hk
    · rw [beq_eq_false_iff_ne.mpr hk]
      rfl
    · rw [hk]
      simp
  rw [hinner]
  simp

theorem passesGuards_false_left (tc : TransferConfig) (cfg : DatasetConfig) (f : Str)
    (h : filteredPfxSkip tc.filteredZipPfx f = true) :
    passesGuards tc cfg f = false := by
  simp [passesGuards, h]

theorem passesGuards_false_right (tc : TransferConfig) (cfg : DatasetConfig) (f : Str)
    (h : filenameHasExcludedState f cfg = true) :
    passesGuards tc cfg f = false := by
  simp [passesGuards, h]

theorem passesGuards_true (tc : TransferConfig) (cfg : DatasetConfig) (f : Str)
    (h1 : filteredPfxSkip tc.filteredZipPfx f = false)
    (h2 : filenameHasExcludedState f cfg = false) :
    passesGuards tc cfg f = true := by
  simp [passesGuards, h1, h2]

theorem browseLoop_transfers (tc : TransferConfig) (cfg : DatasetConfig)
    (succ uploadOk : Str → Bool) (snapshot : List Str) :
    ∀ (files dir : List Str),
      (browseLoop tc cfg succ uploadOk snapshot files dir).transfers =
        files.filter (fun f => passesGuards tc cfg f && !(snapshot.contains (lowerStr f))) := by
  intro files
  induction files with
  | nil => intro dir; rfl
  | cons f rest ih =>
    intro dir
    rw [List.filter_cons]
    simp only [browseLoop]
    by_cases h1 : filteredPfxSkip tc.filteredZipPfx f = true
    · rw [if_pos h1, ih dir, passesGuards_false_left tc cfg f h1]
      simp
    · rw [if_neg h1]
      by_cases h2 : filenameHasExcludedState f cfg = true
      · rw [if_pos h2, ih dir, passesGuards_false_right tc cfg f h2]
        simp
      · rw [if_neg h2]
        have hpass := passesGuards_true tc cfg f
          (eq_false_of_ne_true h1) (eq_false_of_ne_true h2)
        by_cases h3 : snapshot.contains (lowerStr f) = true
        · rw [if_pos h3]
          dsimp only
          rw [ih dir, hpass, h3]
          simp
        · rw [if_neg h3]
          have hc : (passesGuards tc cfg f && !(snapshot.contains (lowerStr f))) = true := by
            rw [hpass, eq_false_of_ne_true h3]
            rfl
          rw [hc]
          by_cases h4 : succ f = true
          · rw [if_pos h4]
            dsimp only
            rw [ih]
            simp
          · rw [if_neg h4]
            dsimp only
            rw [ih dir]
            simp

theorem browseLoop_downloaded (tc : TransferConfig) (cfg : DatasetConfig)
    (succ uploadOk : Str → Bool) (snapshot : List Str)
    (hsucc : ∀ f, succ f = true) :
    ∀ (files dir : List Str),
      (browseLoop tc cfg succ uploadOk snapshot files dir).downloaded =
        files.filter (passesGuards tc cfg) := by
  intro files
  induction files with
  | nil => intro dir; rfl
  | cons f rest ih =>
    intro dir
    rw [List.filter_cons]
    simp only [browseLoop]
    by_cases h1 : filteredPfxSkip tc.filteredZipPfx f = true
    · rw [if_pos h1, ih dir, passesGuards_false_left tc cfg f h1]
      simp
    · rw [if_neg h1]
      by_cases h2 : filenameHasExcludedState f cfg = true
      · rw [if_pos h2, ih dir, passesGuards_false_right tc cfg f h2]
        simp
      · rw [if_neg h2]
        have hpass := passesGuards_true tc cfg f
          (eq_false_of_ne_true h1) (eq_false_of_ne_true h2)
        rw [hpass]
        by_cases h3 : snapshot.contains (lowerStr f) = true
        · rw [if_pos h3]
          dsimp only
          rw [ih dir]
          simp
        · rw [if_neg h3, if_pos (hsucc f)]
          dsimp only
          rw [ih]
          simp

theorem browseLoop_dir_mono (tc : TransferConfig) (cfg : DatasetConfig)
    (succ uploadOk : Str → Bool) (snapshot : List Str)
    (hkeep : tc.saveMode ≠ ("remote".toList) ∨ tc.deleteLocalAfterUpload = false) :
    ∀ (files dir : List Str) (x : Str), x ∈ dir →
      x ∈ (browseLoop tc cfg succ uploadOk snapshot files dir).dir := by
  intro files
  induction files with
  | nil => intro dir x hx; exact hx
  | cons f rest ih =>
    intro dir x hx
    simp only [browseLoop]
    by_cases h1 : filteredPfxSkip tc.filteredZipPfx f = true
    · rw [if_pos h1]; exact ih dir x hx
    · rw [if_neg h1]
      by_cases h2 : filenameHasExcludedState f cfg = true
      · rw [if_pos h2]; exact ih dir x hx
      · rw [if_neg h2]
        by_cases h3 : snapshot.contains (lowerStr f) = true
        · rw [if_pos h3]; exact ih dir x hx
        · rw [if_neg h3]
          by_cases h4 : succ f = true
          · rw [if_pos h4]
            dsimp only
            rw [afterDownloadDir_eq_self tc uploadOk f (f :: dir) hkeep]
            exact ih (f :: dir) x (List.mem_cons_of_mem f hx)
          · rw [if_neg h4]; exact ih dir x hx

theorem browseLoop_pass_in_dir (tc : TransferConfig) (cfg : DatasetConfig)
    (succ uploadOk : Str → Bool) (snapshot : List Str)
    (hkeep : tc.saveMode ≠ ("remote".toList) ∨ tc.deleteLocalAfterUpload = false)
    (hsucc : ∀ f, succ f = true) :
    ∀ (files dir : List Str),
      (∀ x ∈ snapshot, x ∈ dir.map lowerStr) →
      ∀ f ∈ files, passesGuards tc cfg f = true →
        lowerStr f ∈ (browseLoop tc cfg succ uploadOk snapshot files dir).dir.map lowerStr := by
  intro files
  induction files with
  | nil => intro dir _ f hf; exact absurd hf (List.not_mem_nil f)
  | cons g rest ih =>
    intro dir hsub f hf hfpass
    have hdirup : ∀ y ∈ dir, y ∈ (browseLoop tc cfg succ uploadOk snapshot (g :: rest) dir).dir :=
      fun y hy => browseLoop_dir_mono tc cfg succ uploadOk snapshot hkeep (g :: rest) dir y hy
    rcases List.mem_cons.mp hf with rfl | hf2
    · -- the file is the head of the listing and passes both guards
      have hg := hfpass
      simp only [passesGuards, Bool.and_eq_true, Bool.not_eq_true'] at hg
      obtain ⟨e1, e2⟩ := hg
      simp only [browseLoop, e1, e2]
      rw [if_neg (by simp), if_neg (by simp)]
      by_cases h3 : snapshot.contains (lowerStr f) = true
      · rw [if_pos h3]
        dsimp only
        have hmem := hsub (lowerStr f) ((contains_true_iff_mem snapshot (lowerStr f)).mp h3)
        obtain ⟨y, hy, hey⟩ := List.mem_map.mp hmem
        exact List.mem_map.mpr ⟨y,
          browseLoop_dir_mono tc cfg succ uploadOk snapshot hkeep rest dir y hy, hey⟩
      · rw [if_neg h3, if_pos (hsucc f)]
        dsimp only
        rw [afterDownloadDir_eq_self tc uploadOk f (f :: dir) hkeep]
        exact List.mem_map.mpr ⟨f,
          browseLoop_dir_mono tc cfg succ uploadOk snapshot hkeep rest (f :: dir) f
            (List.mem_cons_self f dir), rfl⟩
    · -- the file sits deeper in the listing: step over the head
      simp only [browseLoop]
      by_cases h1 : filteredPfxSkip tc.filteredZipPfx g = true
      · rw [if_pos h1]; exact ih dir hsub f hf2 hfpass
      · rw [if_neg h1]
        by_cases h2 : filenameHasExcludedState g cfg = true
        · rw [if_pos h2]; exact ih dir hsub f hf2 hfpass
        · rw [if_neg h2]
          by_cases h3 : snapshot.contains (lowerStr g) = true
          · rw [if_pos h3]
            dsimp only
            exact ih dir hsub f hf2 hfpass
          · rw [if_neg h3]
            by_cases h4 : succ g = true
            · rw [if_pos h4]
              dsimp only
              rw [afterDownloadDir_eq_self tc uploadOk g (g :: dir) hkeep]
              refine ih (g :: dir) (fun x hx => ?_) f hf2 hfpass
              obtain ⟨y, hy, hey⟩ := List.mem_map.mp (hsub x hx)
              exact List.mem_map.mpr ⟨y, List.mem_cons_of_mem g hy, hey⟩
            · rw [if_neg h4]; exact ih dir hsub f hf2 hfpass

theorem attemptConfirm_eq_none (a : FtpUploadAttempt)
    (h1 : ∀ n, a.sizeOut ≠ SizeOutcome.got n)
    (h2 : ∀ n, a.size2Out ≠ SizeOutcome.got n)
    (h3 : a.nlstFound ≠ some true) :
    attemptConfirm a = none := by
  cases hco : a.connectOk
  · simp [attemptConfirm, hco]
  · cases hcw : a.cwdOk
    · cases hso : a.storOk
      · cases hs2 : a.stor2Ok
        · simp [attemptConfirm, hco, hcw, hso, hs2]
        · cases hsz2 : a.size2Out with
          | got n => exact absurd hsz2 (h2 n)
          | raised => simp [attemptConfirm, hco, hcw, hso, hs2, hsz2]
          | retNone => simp [attemptConfirm, hco, hcw, hso, hs2, hsz2]
      · cases hsz : a.sizeOut with
        | got n => exact absurd hsz (h1 n)
        | retNone => simp [attemptConfirm, hco, hcw, hso, hsz]
        | raised =>
          cases hnl : a.nlstFound with
          | none => simp [attemptConfirm, hco, hcw, hso, hsz, hnl]
          | some b =>
            cases b
            · simp [attemptConfirm, hco, hcw, hso, hsz, hnl]
            · exact absurd hnl h3
    · cases hso : a.storOk
      · simp [attemptConfirm, hco, hcw, hso]
      · cases hsz : a.sizeOut with
        | got n => exact absurd hsz (h1 n)
        | raised => simp [attemptConfirm, hco, hcw, hso, hsz]
        | retNone => simp [attemptConfirm, hco, hcw, hso, hsz]

theorem ftpUploadGo_eq_none (env : Nat → FtpUploadAttempt)
    (h : ∀ k, (∀ n, (env k).sizeOut ≠ SizeOutcome.got n) ∧
      (∀ n, (env k).size2Out ≠ SizeOutcome.got n) ∧ (env k).nlstFound ≠ some true) :
    ∀ (fuel k : Nat), ftpUploadGo env fuel k = none
  | 0, _ => rfl
  | fuel + 1, k => by
    simp only [ftpUploadGo, attemptConfirm_eq_none (env k) (h k).1 (h k).2.1 (h k).2.2]
    exact ftpUploadGo_eq_none env h fuel (k + 1)

theorem attemptConfirm_source (a : FtpUploadAttempt) :
    ∀ c, attemptConfirm a = some c →
      (∃ n, c = SinkConfirm.bySize n ∧
        (a.sizeOut = SizeOutcome.got n ∨ a.size2Out = SizeOutcome.got n)) ∨
      (c = SinkConfirm.byListing ∧ a.nlstFound = some true) := by
  intro c hc
  cases hco : a.connectOk
  · simp [attemptConfirm, hco] at hc
  · cases hcw : a.cwdOk
    · cases hso : a.storOk
      · cases hs2 : a.stor2Ok
        · simp [attemptConfirm, hco, hcw, hso, hs2] at hc
        · cases hsz2 : a.size2Out with
          | got n =>
            simp [attemptConfirm, hco, hcw, hso, hs2, hsz2] at hc
            exact Or.inl ⟨n, hc.symm, Or.inr rfl⟩
          | raised => simp [attemptConfirm, hco, hcw, hso, hs2, hsz2] at hc
          | retNone => simp [attemptConfirm, hco, hcw, hso, hs2, hsz2] at hc
      · cases hsz : a.sizeOut with
        | got n =>
          simp [attemptConfirm, hco, hcw, hso, hsz] at hc
          exact Or.inl ⟨n, hc.symm, Or.inl rfl⟩
        | retNone => simp [attemptConfirm, hco, hcw, hso, hsz] at hc
        | raised =>
          cases hnl : a.nlstFound with
          | none => simp [attemptConfirm, hco, hcw, hso, hsz, hnl] at hc
          | some b =>
            cases b
            · simp [attemptConfirm, hco, hcw, hso, hsz, hnl] at hc
            · simp [attemptConfirm, hco, hcw, hso, hsz, hnl] at hc
              exact Or.inr ⟨hc.symm, rfl⟩
    · cases hso : a.storOk
      · simp [attemptConfirm, hco, hcw, hso] at hc
      · cases hsz : a.sizeOut with
        | got n =>
          simp [attemptConfirm, hco, hcw, hso, hsz] at hc
          exact Or.inl ⟨n, hc.symm, Or.inl rfl⟩
        | raised => simp [attemptConfirm, hco, hcw, hso, hsz] at hc
        | retNone => simp [attemptConfirm, hco, hcw, hso, hsz] at hc

/-! ## Claim theorems -/

/-- C1, counterexample: with `require_ftp = false`, action `move`,
`objectStoreVerified = true` and `ftpVerified = false`, the code keeps the
local archive while row `false | any` of the specification matrix deletes
it. -/
theorem C1_counterexample :
    shouldDeleteFiltered ("move".toList) false true false = false ∧
    specCleanupMatrix false ("move".toList) true false = true := by
  exact ⟨by decide, by decide⟩

/-- C1 (amended): the cleanup decision computed by the loop is: for action
`move`, delete iff the FTP upload was verified, for both values of
`require_ftp` (the object-store outcome is always irrelevant under
`move`); for action `copy`, never delete when `require_ftp` is set, and
delete iff either sink was verified otherwise. -/
theorem C1_cleanup_decision (requireFtp spaceOk ftpOk : Bool) :
    shouldDeleteFiltered ("move".toList) requireFtp spaceOk ftpOk = ftpOk ∧
    shouldDeleteFiltered ("copy".toList) true spaceOk ftpOk = false ∧
    shouldDeleteFiltered ("copy".toList) false spaceOk ftpOk = (spaceOk || ftpOk) := by
  refine ⟨?_, ?_, ?_⟩ <;> simp [shouldDeleteFiltered]

/-- C2, counterexample: the listing filter of `_filter_files_by_dataset`
accepts `FOO_CA_TX_TAXASSESSOR_0001.zip` for a dataset requesting only
`TX` with `CA` excluded, although the file carries the excluded token
`CA` — the claimed predicate rejects it.  The exclusion branch inside the
function only fires on the first token that equals a configured partition
key, and `CA` is not among the configured keys. -/
theorem C2_counterexample :
    filterFilesByDataset [("TX".toList)]
        ⟨("Assessor".toList), none, false, false, [("CA".toList)]⟩
        [("FOO_CA_TX_TAXASSESSOR_0001.zip".toList)] =
      [("FOO_CA_TX_TAXASSESSOR_0001.zip".toList)] ∧
    specBrowseMatch [("TX".toList)]
        ⟨("Assessor".toList), none, false, false, [("CA".toList)]⟩
        ("FOO_CA_TX_TAXASSESSOR_0001.zip".toList) = false := by
  exact ⟨by decide, by decide⟩

/-- C2 (amended): provided no requested partition key is the empty
string, the claimed iff holds for the complete browse-mode decision,
namely `_filter_files_by_dataset` conjoined with the separate
`_filename_has_excluded_state` guard applied per file in
`download_dataset`; the matcher alone enforces the exclusion only through
the first token equal to a configured partition key. -/
theorem C2_browse_match_combined (states : List Str) (cfg : DatasetConfig) (file : Str)
    (hne : [] ∉ states) :
    (fileAccepted states cfg file && !(filenameHasExcludedState file cfg)) =
      specBrowseMatch states cfg file := by
  rw [filenameHasExcludedState_eq]
  simp only [fileAccepted, specBrowseMatch]
  rw [all_not_eq_not_any]
  by_cases hA : (tokensOf file).any (fun p => (cfg.excludeStates.map upperStr).contains p) = true
  · rw [hA]
    simp
  · have hA' := eq_false_of_ne_true hA
    have hall : ∀ p ∈ tokensOf file,
        (cfg.excludeStates.map upperStr).contains p = false := by
      intro p hp
      by_contra hc
      exact hA (List.any_eq_true.mpr ⟨p, hp, eq_true_of_ne_false hc⟩)
    have hniles : [] ∉ states.map upperStr := by
      intro hmem
      obtain ⟨k, hk, hke⟩ := List.mem_map.mp hmem
      have hknil : k = [] := by
        cases k
        · rfl
        · exact absurd hke (by simp [upperStr])
      exact hne (hknil ▸ hk)
    cases hsf : (tokensOf file).find? (fun p => (states.map upperStr).contains p) with
    | none =>
      have hany : (tokensOf file).any (fun p => (states.map upperStr).contains p) = false := by
        rw [← find?_isSome_eq_any, hsf]
        rfl
      rw [hA', hany]
      cases cfg.ignoreStates <;>
        cases hpp : ((tokensOf file).contains (parserKwOf cfg) ||
          isSub (parserKwOf cfg) (upperStr file)) <;>
        cases cfg.allowParserOnly <;> simp_all
    | some st =>
      have hst : (states.map upperStr).contains st = true := List.find?_some hsf
      have hstm : st ∈ tokensOf file := List.mem_of_find?_eq_some hsf
      have hstne : st.isEmpty = false := by
        cases hst2 : st
        · exact absurd ((contains_true_iff_mem _ _).mp (hst2 ▸ hst)) hniles
        · rfl
      have hany : (tokensOf file).any (fun p => (states.map upperStr).contains p) = true := by
        rw [← find?_isSome_eq_any, hsf]
        rfl
      rw [hA', hany]
      dsimp only
      rw [hall st hstm, hstne]
      cases cfg.ignoreStates <;>
        cases hpp : ((tokensOf file).contains (parserKwOf cfg) ||
          isSub (parserKwOf cfg) (upperStr file)) <;>
        cases cfg.allowParserOnly <;> simp_all

/-- C2, witness: the combined decision agrees with the worded predicate on
the Assessor example file from the specification. -/
theorem C2_witness :
    (fileAccepted [("CA".toList)] ⟨("Assessor".toList), none, false, false, []⟩
        ("1PARKPLACE_CA_TAXASSESSOR_0001.zip".toList) &&
      !(filenameHasExcludedState ("1PARKPLACE_CA_TAXASSESSOR_0001.zip".toList)
        ⟨("Assessor".toList), none, false, false, []⟩)) =
      specBrowseMatch [("CA".toList)] ⟨("Assessor".toList), none, false, false, []⟩
        ("1PARKPLACE_CA_TAXASSESSOR_0001.zip".toList) :=
  C2_browse_match_combined [("CA".toList)] ⟨("Assessor".toList), none, false, false, []⟩
    ("1PARKPLACE_CA_TAXASSESSOR_0001.zip".toList) (by decide)

/-- C3, counterexample: with requested keys `CA, TX` (two keys, so the
single-pass branch runs) and a record whose key column holds the
lowercase value `ca`, the single pass keeps the record (it uppercases the
value before the membership test) while each separate single-key run
compares for exact equality and drops it, so the merged output differs
from the ordered union of the single-key outputs. -/
theorem C3_counterexample :
    2 ≤ [("CA".toList), ("TX".toList)].length ∧
    filterMultipleStatesLines ("ST".toList) ',' [("CA".toList), ("TX".toList)]
        [("ST".toList), ("ca".toList)] = [("ST".toList), ("ca".toList)] ∧
    orderedUnionOfSingles ("ST".toList) ',' [("CA".toList), ("TX".toList)]
        [("ST".toList), ("ca".toList)] = [("ST".toList)] := by
  exact ⟨by decide, by decide, by decide⟩

/-- C3 (amended): when every requested key and every record line is
invariant under uppercasing, the single-pass multi-key filter emits
exactly the ordered union of the separate single-key runs — the same
records, in input order, with the header counted once.  In general the
single pass matches case-insensitively while the single-key runs match
exactly. -/
theorem C3_multi_pass_union (col : Str) (delim : Char) (keys : List Str)
    (header : Str) (records : List Str)
    (_hn : 2 ≤ keys.length)
    (hkeys : ∀ k ∈ keys, upperStr k = k)
    (hrecs : ∀ l ∈ records, ∀ c ∈ l, c.toUpper = c) :
    filterMultipleStatesLines col delim keys (header :: records) =
      orderedUnionOfSingles col delim keys (header :: records) := by
  simp only [filterMultipleStatesLines, orderedUnionOfSingles]
  congr 1
  cases hidx : headerIndexOf col delim header with
  | some idx =>
    refine List.filter_congr (fun l hl => ?_)
    rw [multiKeep_eq_any_singleKeep delim idx keys l hkeys (hrecs l hl)]
    have hb : ∀ k, singleBodyKeep col delim k header l = singleKeep delim idx k l := by
      intro k
      simp only [singleBodyKeep, hidx]
    simp only [hb]
  | none =>
    rw [map_upperStr_eq_self hkeys]
    refine List.filter_congr (fun l _ => ?_)
    have hb : ∀ k, singleBodyKeep col delim k header l = singleKeepFallback delim k l := by
      intro k
      simp only [singleBodyKeep, hidx]
    simp only [hb]
    rfl

/-- C3, witness: a three-record tab-delimited fixture requesting CA and
TX. -/
theorem C3_witness :
    filterMultipleStatesLines ("ST".toList) '\t' [("CA".toList), ("TX".toList)]
        [("ID\tST".toList), ("1\tCA".toList), ("2\tNV".toList), ("3\tTX".toList)] =
      orderedUnionOfSingles ("ST".toList) '\t' [("CA".toList), ("TX".toList)]
        [("ID\tST".toList), ("1\tCA".toList), ("2\tNV".toList), ("3\tTX".toList)] :=
  C3_multi_pass_union ("ST".toList) '\t' [("CA".toList), ("TX".toList)]
    ("ID\tST".toList) [("1\tCA".toList), ("2\tNV".toList), ("3\tTX".toList)]
    (by decide) (by decide) (by decide)

/-- C4, counterexample: a record whose key column holds `ca` is emitted by
the multi-key filter for requested keys `CA, TX` although its value equals
no requested key — the single pass uppercases the value before the
membership test, so the output is not exactly the records whose value
equals a requested key. -/
theorem C4_counterexample :
    filterMultipleStatesLines ("ST".toList) ',' [("CA".toList), ("TX".toList)]
        [("ST".toList), ("ca".toList)] = [("ST".toList), ("ca".toList)] ∧
    specFilteredFile ("ST".toList) ',' [("CA".toList), ("TX".toList)]
        [("ST".toList), ("ca".toList)] = [("ST".toList)] ∧
    [("ST".toList), ("ca".toList)] ≠ [("ST".toList)] := by
  exact ⟨by decide, by decide, by decide⟩

/-- C4 (amended): the multi-key filter output is the header followed by
exactly the records whose stripped key-column value uppercases into the
uppercased requested key set, unmodified and in input order (the output is
a sublist of the input); this coincides with the claimed exact-equality
filter whenever keys and record lines are uppercase-invariant, and the
single-key path satisfies the exact-equality contract unconditionally. -/
theorem C4_filter_output (col : Str) (delim : Char) (keys : List Str) (k header : Str)
    (records : List Str) (idx : Nat)
    (hidx : headerIndexOf col delim header = some idx)
    (hkeys : ∀ k0 ∈ keys, upperStr k0 = k0)
    (hrecs : ∀ l ∈ records, ∀ c ∈ l, c.toUpper = c) :
    filterMultipleStatesLines col delim keys (header :: records) =
      header :: records.filter (specKeep delim idx keys) ∧
    (filterMultipleStatesLines col delim keys (header :: records)).Sublist
      (header :: records) ∧
    filterFileByState col delim k (header :: records) =
      header :: records.filter (specKeep delim idx [k]) := by
  refine ⟨?_, ?_, ?_⟩
  · simp only [filterMultipleStatesLines, hidx]
    exact congrArg (header :: ·)
      (List.filter_congr (fun l hl => multiKeep_eq_specKeep delim idx keys l hkeys (hrecs l hl)))
  · simp only [filterMultipleStatesLines, hidx]
    exact List.Sublist.cons₂ header (List.filter_sublist records)
  · simp only [filterFileByState, hidx]
    exact congrArg (header :: ·)
      (List.filter_congr (fun l _ => singleKeep_eq_specKeep_singleton delim idx k l))

/-- C4, witness: the fixture file with a found `ST` column, keys CA and
TX, and the single-key run for CA. -/
theorem C4_witness :
    filterMultipleStatesLines ("ST".toList) '\t' [("CA".toList), ("TX".toList)]
        [("ID\tST".toList), ("1\tCA".toList), ("2\tNV".toList)] =
      ("ID\tST".toList) ::
        [("1\tCA".toList), ("2\tNV".toList)].filter
          (specKeep '\t' 1 [("CA".toList), ("TX".toList)]) ∧
    filterFileByState ("ST".toList) '\t' ("CA".toList)
        [("ID\tST".toList), ("1\tCA".toList), ("2\tNV".toList)] =
      ("ID\tST".toList) ::
        [("1\tCA".toList), ("2\tNV".toList)].filter (specKeep '\t' 1 [("CA".toList)]) := by
  have h := C4_filter_output ("ST".toList) '\t' [("CA".toList), ("TX".toList)]
    ("CA".toList) ("ID\tST".toList) [("1\tCA".toList), ("2\tNV".toList)] 1
    (by decide) (by decide) (by decide)
  exact ⟨h.1, h.2.2⟩

/-- C6, counterexample: a Spaces upload that completes without a transport
error yields a URL whose truthiness sets the object-store verified flag
consumed by the cleanup loop to true, while the upload performed zero
server-side size or listing checks. -/
theorem C6_counterexample :
    spacesFlagFor
        (spacesFlagMap [("a.zip".toList)]
          [(spacesUploadChecked true ("EP".toList) ("B".toList) ("D/a.zip".toList)).1.getD []])
        ("a.zip".toList) = true ∧
    (spacesUploadChecked true ("EP".toList) ("B".toList) ("D/a.zip".toList)).2 = [] := by
  exact ⟨by decide, rfl⟩

/-- C5, counterexample: a browse listing that names the same file twice
(the snapshot of existing filenames is computed once at run start and
never updated) transfers that filename twice within one run. -/
theorem C5_counterexample :
    (browseModeRun {} ⟨("Assessor".toList), none, false, false, []⟩
        (fun _ => true) (fun _ => true) []
        [("A.ZIP".toList), ("A.ZIP".toList)]).transfers =
      [("A.ZIP".toList), ("A.ZIP".toList)] ∧
    ¬((browseModeRun {} ⟨("Assessor".toList), none, false, false, []⟩
        (fun _ => true) (fun _ => true) []
        [("A.ZIP".toList), ("A.ZIP".toList)]).transfers.count ("A.ZIP".toList) ≤ 1) := by
  exact ⟨by decide, by decide⟩

/-- C5 (amended): provided the listing carries no duplicate filenames
(case-insensitively), each name is transferred at most once per run;
every transferred name was absent from the start-of-run snapshot of the
download directory (the existence check precedes the transfer); and when
transfers succeed and the post-download side effect does not delete local
files, a second run over the resulting directory performs zero transfers
while returning the same artifact list. -/
theorem C5_download_idempotence (tc : TransferConfig) (cfg : DatasetConfig)
    (succ uploadOk : Str → Bool) (dir0 files : List Str)
    (hkeep : tc.saveMode ≠ ("remote".toList) ∨ tc.deleteLocalAfterUpload = false)
    (hsucc : ∀ f, succ f = true)
    (hnodup : (files.map lowerStr).Nodup) :
    (∀ f, (browseModeRun tc cfg succ uploadOk dir0 files).transfers.count f ≤ 1) ∧
    (∀ f ∈ (browseModeRun tc cfg succ uploadOk dir0 files).transfers,
      lowerStr f ∉ dir0.map lowerStr) ∧
    (browseModeRun tc cfg succ uploadOk
        (browseModeRun tc cfg succ uploadOk dir0 files).dir files).transfers = [] ∧
    (browseModeRun tc cfg succ uploadOk
        (browseModeRun tc cfg succ uploadOk dir0 files).dir files).downloaded =
      (browseModeRun tc cfg succ uploadOk dir0 files).downloaded := by
  have ht1 : (browseModeRun tc cfg succ uploadOk dir0 files).transfers =
      files.filter (fun f => passesGuards tc cfg f &&
        !((dir0.map lowerStr).contains (lowerStr f))) :=
    browseLoop_transfers tc cfg succ uploadOk (dir0.map lowerStr) files dir0
  refine ⟨?_, ?_, ?_, ?_⟩
  · intro f
    have hsub : ((browseModeRun tc cfg succ uploadOk dir0 files).transfers.map lowerStr).Sublist
        (files.map lowerStr) := by
      rw [ht1]
      exact (List.filter_sublist files).map lowerStr
    have hnd : (browseModeRun tc cfg succ uploadOk dir0 files).transfers.Nodup :=
      (hnodup.sublist hsub).of_map lowerStr
    exact count_le_one_of_nodup hnd f
  · intro f hf
    rw [ht1] at hf
    have hq := (List.mem_filter.mp hf).2
    intro hmem
    rw [(contains_true_iff_mem (dir0.map lowerStr) (lowerStr f)).mpr hmem] at hq
    simp at hq
  · have ht2 : (browseModeRun tc cfg succ uploadOk
        (browseModeRun tc cfg succ uploadOk dir0 files).dir files).transfers =
      files.filter (fun f => passesGuards tc cfg f &&
        !(((browseModeRun tc cfg succ uploadOk dir0 files).dir.map lowerStr).contains
          (lowerStr f))) :=
      browseLoop_transfers tc cfg succ uploadOk _ files _
    rw [ht2]
    rw [List.filter_eq_nil_iff]
    intro f hf
    by_cases hpass : passesGuards tc cfg f = true
    · have hin : lowerStr f ∈
          (browseModeRun tc cfg succ uploadOk dir0 files).dir.map lowerStr :=
        browseLoop_pass_in_dir tc cfg succ uploadOk (dir0.map lowerStr) hkeep hsucc
          files dir0 (fun x hx => hx) f hf hpass
      rw [hpass, (contains_true_iff_mem _ _).mpr hin]
      simp
    · rw [eq_false_of_ne_true hpass]
      simp
  · exact (browseLoop_downloaded tc cfg succ uploadOk
        ((browseModeRun tc cfg succ uploadOk dir0 files).dir.map lowerStr) hsucc files
        (browseModeRun tc cfg succ uploadOk dir0 files).dir).trans
      (browseLoop_downloaded tc cfg succ uploadOk (dir0.map lowerStr) hsucc files dir0).symm

/-- C5, witness: two distinct fresh names, trivial guards, all transfers
succeeding, no post-download deletion. -/
theorem C5_witness :
    (browseModeRun {} ⟨("Assessor".toList), none, false, false, []⟩
        (fun _ => true) (fun _ => true) []
        [("A.ZIP".toList), ("B.ZIP".toList)]).transfers.count ("A.ZIP".toList) ≤ 1 ∧
    (browseModeRun {} ⟨("Assessor".toList), none, false, false, []⟩
        (fun _ => true) (fun _ => true)
        (browseModeRun {} ⟨("Assessor".toList), none, false, false, []⟩
          (fun _ => true) (fun _ => true) []
          [("A.ZIP".toList), ("B.ZIP".toList)]).dir
        [("A.ZIP".toList), ("B.ZIP".toList)]).transfers = [] ∧
    (browseModeRun {} ⟨("Assessor".toList), none, false, false, []⟩
        (fun _ => true) (fun _ => true)
        (browseModeRun {} ⟨("Assessor".toList), none, false, false, []⟩
          (fun _ => true) (fun _ => true) []
          [("A.ZIP".toList), ("B.ZIP".toList)]).dir
        [("A.ZIP".toList), ("B.ZIP".toList)]).downloaded =
      (browseModeRun {} ⟨("Assessor".toList), none, false, false, []⟩
        (fun _ => true) (fun _ => true) []
        [("A.ZIP".toList), ("B.ZIP".toList)]).downloaded := by
  have h := C5_download_idempotence {} ⟨("Assessor".toList), none, false, false, []⟩
    (fun _ => true) (fun _ => true) [] [("A.ZIP".toList), ("B.ZIP".toList)]
    (Or.inl (by decide)) (fun _ => rfl) (by decide)
  exact ⟨h.1 ("A.ZIP".toList), h.2.2.1, h.2.2.2⟩

/-- C6 (amended): the FTP sink satisfies the claim — `upload_file` can
only answer verified after a server-side confirmation (a SIZE probe that
returned a size, or an NLST listing showing the file); when no attempt
ever obtains such a confirmation the call returns False for every retry
budget, even if every transfer completed without a transport error.  The
object-store sink, by contrast, records mere completion (see the
counterexample). -/
theorem C6_ftp_verified_needs_server_check (env : Nat → FtpUploadAttempt) (retries : Nat)
    (h : ∀ k, (∀ n, (env k).sizeOut ≠ SizeOutcome.got n) ∧
      (∀ n, (env k).size2Out ≠ SizeOutcome.got n) ∧ (env k).nlstFound ≠ some true) :
    ftpUploadResult env retries = none ∧
    (∀ (a : FtpUploadAttempt) (n : Nat),
      attemptConfirm a = some (SinkConfirm.bySize n) →
      a.sizeOut = SizeOutcome.got n ∨ a.size2Out = SizeOutcome.got n) ∧
    (∀ a : FtpUploadAttempt, attemptConfirm a = some SinkConfirm.byListing →
      a.nlstFound = some true) := by
  refine ⟨ftpUploadGo_eq_none env h (max 1 retries) 1, ?_, ?_⟩
  · intro a n hc
    rcases attemptConfirm_source a _ hc with ⟨m, hm, hsrc⟩ | ⟨hl, _⟩
    · cases hm
      exact hsrc
    · cases hl
  · intro a hc
    rcases attemptConfirm_source a _ hc with ⟨m, hm, _⟩ | ⟨_, hn⟩
    · cases hm
    · exact hn

/-- C6, witness: every attempt completes its STOR but the SIZE probe
raises and no listing is consulted — the uploader reports failure after
three attempts. -/
theorem C6_witness :
    ftpUploadResult (fun _ => {}) 3 = none ∧
    ((fun _ => ({} : FtpUploadAttempt)) 1).storOk = true := by
  have h := C6_ftp_verified_needs_server_check (fun _ => {}) 3
    (fun _ => ⟨fun n hn => SizeOutcome.noConfusion hn,
      fun n hn => SizeOutcome.noConfusion hn,
      fun hn => Option.noConfusion hn⟩)
  exact ⟨h.1, rfl⟩

/-- C7, counterexample: three failing FTP attempts sleep 5, 10 and 15
seconds — the linear schedule `min(5 * attempt, 60)` — which matches no
reading of the claimed exponential schedule with base delay 5 (neither
`5 * 2 ^ attempt` nor `5 * 2 ^ (attempt - 1)`, and the cap of 60 is not
reached). -/
theorem C7_counterexample :
    (ftpDownloadWithRetries (fun _ => ⟨false, 0⟩) 3 0).sleeps = [5, 10, 15] ∧
    [5, 10, 15] ≠ [min (5 * 2 ^ 1) 60, min (5 * 2 ^ 2) 60, min (5 * 2 ^ 3) 60] ∧
    [5, 10, 15] ≠ [min (5 * 2 ^ 0) 60, min (5 * 2 ^ 1) 60, min (5 * 2 ^ 2) 60] := by
  exact ⟨by decide, by decide, by decide⟩

/-- C7 (amended): downloads are retried up to the attempt limit; the delay
slept after failed attempt `n` is linear with a cap — `min(5 n, 60)`
seconds for FTP and `min(5 n, 30)` seconds for HTTP — and the partial
file is preserved across attempts (its byte count never decreases, each
retry resumes by appending). -/
theorem C7_retry_linear_backoff (env : Nat → DownloadAttempt) (limit part0 : Nat) :
    ((ftpDownloadWithRetries env limit part0).sleeps =
        (List.range' 1 (ftpDownloadWithRetries env limit part0).sleeps.length).map ftpRetrySleep ∧
      part0 ≤ (ftpDownloadWithRetries env limit part0).partBytes ∧
      (ftpDownloadWithRetries env limit part0).sleeps.length ≤ limit) ∧
    ((httpDownloadWithRetries env limit part0).sleeps =
        (List.range' 1 (httpDownloadWithRetries env limit part0).sleeps.length).map httpRetrySleep ∧
      part0 ≤ (httpDownloadWithRetries env limit part0).partBytes ∧
      (httpDownloadWithRetries env limit part0).sleeps.length ≤ limit) :=
  ⟨downloadRetryLoop_spec ftpRetrySleep env limit 1 part0,
   downloadRetryLoop_spec httpRetrySleep env limit 1 part0⟩

/-- C8: with a configured (nonempty) prefix the archive is named
`prefix + stem + .zip` with no date component, and an entry whose stem is
a clean stem followed by the `_filtered_<keys>` suffix produced by the
filter is renamed to `prefix + clean stem + extension`; an entry without
the marker just gains the prefix; without a prefix the archive gets the
default dated name and entries keep their filenames. -/
theorem C8_archive_naming (pfx datasetName stem dateStr s k ext : Str)
    (hp : pfx ≠ [])
    (hb : isSub filteredMarker (s ++ filteredMarker.dropLast) = false) :
    zipNameFor pfx datasetName stem dateStr = pfx ++ stem ++ (".zip".toList) ∧
    zipNameFor [] datasetName stem dateStr =
      datasetName ++ ("_".toList) ++ stem ++ ("_".toList) ++ dateStr ++ (".zip".toList) ∧
    arcnameFor pfx (s ++ filteredMarker ++ k) ext = pfx ++ s ++ ext ∧
    (isSub filteredMarker stem = false → arcnameFor pfx stem ext = pfx ++ stem ++ ext) ∧
    arcnameFor [] stem ext = stem ++ ext := by
  have hpe : pfx.isEmpty = false := by
    cases pfx
    · exact absurd rfl hp
    · rfl
  refine ⟨by simp [zipNameFor, hpe], by simp [zipNameFor], ?_, ?_, by simp [arcnameFor]⟩
  · simp only [arcnameFor, hpe]
    rw [if_neg (by simp)]
    rw [takeBeforeMarker_boundary filteredMarker k (by decide) s hb]
  · intro hns
    simp only [arcnameFor, hpe]
    rw [if_neg (by simp)]
    rw [takeBeforeMarker_of_no_marker filteredMarker stem hns]

/-- C8, witness: the prefixed archive name and the marker-stripping entry
rename at concrete inputs. -/
theorem C8_witness :
    zipNameFor ("1PP_FILTERED_".toList) ("Assessor".toList)
        ("1PARKPLACE_TAXASSESSOR_0022".toList) ("20251012".toList) =
      ("1PP_FILTERED_".toList) ++ ("1PARKPLACE_TAXASSESSOR_0022".toList) ++ (".zip".toList) ∧
    arcnameFor ("1PP_FILTERED_".toList)
        (("1PARKPLACE_TAXASSESSOR_0022".toList) ++ filteredMarker ++ ("TX_CA".toList))
        (".txt".toList) =
      ("1PP_FILTERED_".toList) ++ ("1PARKPLACE_TAXASSESSOR_0022".toList) ++ (".txt".toList) := by
  have h := C8_archive_naming ("1PP_FILTERED_".toList) ("Assessor".toList)
    ("1PARKPLACE_TAXASSESSOR_0022".toList) ("20251012".toList)
    ("1PARKPLACE_TAXASSESSOR_0022".toList) ("TX_CA".toList) (".txt".toList)
    (by decide) (by decide)
  exact ⟨h.1, h.2.2.1⟩

/-- C9: when the archive build raised, or the returned archive does not
exist, or its size is zero, every intermediate filtered file is left
untouched; only an existing archive of nonzero size triggers
post-processing, which moves an existing intermediate file under policy
`move` and deletes it under any other policy. -/
theorem C9_intermediate_cleanup (result : BuildResult) (action : Str)
    (files : List (Str × Bool)) :
    ((result = BuildResult.raised ∨ (∃ n, result = BuildResult.returned false n) ∨
        (∃ e, result = BuildResult.returned e 0)) →
      ∀ p ∈ intermediateDispositions result action files, p.2 = Disposition.untouched) ∧
    (∀ ex n, result = BuildResult.returned ex n → ex = true → 0 < n →
      intermediateDispositions result action files =
        files.map (fun f => (f.1,
          if f.2 then
            (if action == ("move".toList) then Disposition.movedToProcessed
             else Disposition.deleted)
          else Disposition.untouched))) := by
  constructor
  · rintro (rfl | ⟨n, rfl⟩ | ⟨e, rfl⟩) p hp
    · simp only [intermediateDispositions, List.mem_map] at hp
      obtain ⟨f, _, rfl⟩ := hp
      rfl
    · simp only [intermediateDispositions] at hp
      rw [if_neg (by simp)] at hp
      simp only [List.mem_map] at hp
      obtain ⟨f, _, rfl⟩ := hp
      rfl
    · simp only [intermediateDispositions] at hp
      rw [if_neg (by simp)] at hp
      simp only [List.mem_map] at hp
      obtain ⟨f, _, rfl⟩ := hp
      rfl
  · rintro ex n rfl rfl hn
    simp only [intermediateDispositions, decide_eq_true hn, Bool.true_and, if_pos]
    refine List.map_congr_left (fun f _ => ?_)
    simp only [postFilterDisposition]
    cases f.2 <;> simp

/-- C9, witness: a raised-equivalent zero-size archive keeps the
intermediate file; a successful nonzero archive with policy `move` moves
it. -/
theorem C9_witness :
    (∀ p ∈ intermediateDispositions (BuildResult.returned true 0) ("delete".toList)
        [(("a.txt".toList), true)], p.2 = Disposition.untouched) ∧
    intermediateDispositions (BuildResult.returned true 3) ("move".toList)
        [(("a.txt".toList), true)] =
      [(("a.txt".toList), true)].map (fun f => (f.1,
        if f.2 then
          (if ("move".toList) == ("move".toList) then Disposition.movedToProcessed
           else Disposition.deleted)
        else Disposition.untouched)) :=
  ⟨(C9_intermediate_cleanup (BuildResult.returned true 0) ("delete".toList)
      [(("a.txt".toList), true)]).1 (Or.inr (Or.inr ⟨true, rfl⟩)),
   (C9_intermediate_cleanup (BuildResult.returned true 3) ("move".toList)
      [(("a.txt".toList), true)]).2 true 3 rfl rfl (by decide)⟩

/-- C10: with two archives of which the first upload fails and the second
succeeds, the positional zip of the success-only URL list marks the failed
first archive as uploaded and the successful second archive as not
uploaded — the flags `[true, false]` instead of the per-archive outcomes
`[false, true]`. -/
theorem C10_flag_misalignment :
    (let urls := uploadMultipleFilesSpaces ("EP".toList) ("B".toList) ("D".toList)
        [(("a.zip".toList), false), (("b.zip".toList), true)];
     let m := spacesFlagMap [("a.zip".toList), ("b.zip".toList)] urls;
     [spacesFlagFor m ("a.zip".toList), spacesFlagFor m ("b.zip".toList)]) = [true, false] ∧
    [true, false] ≠ [false, true] := by
  exact ⟨by decide, by decide⟩

end ETL
